import Mathlib

set_option autoImplicit false

namespace JioTV

/-! Shallow embedding of the jiotv_go streaming gateway.

Go strings are modelled as lists of characters (`Str`), and the Go standard
library string operations used by the sources (strings.HasPrefix,
strings.Contains, strings.Index, strings.Split, strings.TrimPrefix,
strings.TrimSpace, strings.IndexByte, strings.Replace) are reimplemented
below on that representation. Machine integers are modelled as `Int` (Go
`int`); byte values are `Nat` reduced modulo 256 where overflow matters. -/

abbrev Str := List Char

/-- Coercion from a Lean string literal to the `List Char` model. -/
def strOf (s : String) : Str := s.data

/-- Go strings.HasPrefix(s, pre): true when `pre` is a prefix of `s`. -/
def startsWith : Str → Str → Bool
  | _, [] => true
  | [], _ :: _ => false
  | c :: s, d :: p => (c = d) && startsWith s p

/-- Go strings.Index(s, sub): index of the first occurrence of `sub` in `s`,
returned as an option instead of the Go sentinel -1. -/
def indexOfSub : Str → Str → Option Nat
  | [], sub => if sub = [] then some 0 else none
  | c :: s, sub =>
    if startsWith (c :: s) sub then some 0
    else (indexOfSub s sub).map (· + 1)

/-- Go strings.Contains(s, sub). -/
def containsSub (s sub : Str) : Bool := (indexOfSub s sub).isSome

/-- Go strings.Split(s, sep) for a one-character separator, as used by the
sources (separators "&" and ","). -/
def splitOnChar (sep : Char) : Str → List Str
  | [] => [[]]
  | c :: rest =>
    if c = sep then [] :: splitOnChar sep rest
    else
      match splitOnChar sep rest with
      | r :: rs => (c :: r) :: rs
      | [] => [[c]]

/-- Go strings.TrimPrefix(s, pre). -/
def trimPre (s pre : Str) : Str :=
  if startsWith s pre then s.drop pre.length else s

/-- Go token[:i] where i = strings.IndexByte(token, c): the part of the string
before the first occurrence of `c` (the whole string when `c` is absent). -/
def takeUntilChar (c : Char) (s : Str) : Str := s.takeWhile (· ≠ c)

/-- Whitespace recognizer for the Go strings.TrimSpace model. -/
def isSpaceChar (c : Char) : Bool := c = ' ' || c = '\t' || c = '\n' || c = '\r'

/-- Go strings.TrimSpace(s) restricted to ASCII whitespace. -/
def trimSpace (s : Str) : Str :=
  ((s.dropWhile isSpaceChar).reverse.dropWhile isSpaceChar).reverse

/-- Go strings.Replace(s, old, new, 1): replace the first occurrence only. -/
def replaceFirst (s old new : Str) : Str :=
  match indexOfSub s old with
  | some i => s.take i ++ new ++ s.drop (i + old.length)
  | none => s

/-- Decimal integer scanned by fmt.Sscanf verb %d from the front of a string:
an optional sign followed by at least one digit, ignoring trailing bytes. -/
def parseIntPre (s : Str) : Option Int :=
  let signAndRest : Bool × Str :=
    match s with
    | '-' :: r => (true, r)
    | '+' :: r => (false, r)
    | _ => (false, s)
  let ds := signAndRest.2.takeWhile Char.isDigit
  if ds = [] then none
  else
    let n : Nat := ds.foldl (fun a c => a * 10 + (c.toNat - '0'.toNat)) 0
    some (if signAndRest.1 then -(n : Int) else (n : Int))

/-! ### Secure URL codec (pkg/secureurl)

Modelled from the spec: the pkg/secureurl implementation is not among the
provided sources (only its callers are), so the codec is modelled from
section 4.1 of the specification: authenticated encryption of a serialized
reference with a fresh nonce per call, producing a URL-safe token;
decryption verifies integrity and fails with `InvalidToken` on any
tampering. The cipher is a keystream addition modulo 256 and the
authenticator is a keyed byte-wise injective code over nonce and
ciphertext, which realizes the confidentiality/integrity contract stated by
the spec in an executable form. -/

/-- Codec failure taxonomy from the spec: integrity failures are
`InvalidToken`. -/
inductive CodecError where
  | invalidToken
deriving DecidableEq, Repr

/-- Modelled from the spec: fixed nonce length of the codec model. -/
def nonceLen : Nat := 12

/-- Modelled from the spec: keystream byte `i` derived from key and nonce. -/
def keystreamByte (key : Nat) (nonce : List Nat) (i : Nat) : Nat :=
  (key + nonce.foldl (· + ·) 0 + i * 31) % 256

/-- Modelled from the spec: encrypt plaintext bytes from stream position `i`. -/
def streamEnc (key : Nat) (nonce : List Nat) : Nat → List Nat → List Nat
  | _, [] => []
  | i, b :: rest => ((b + keystreamByte key nonce i) % 256) :: streamEnc key nonce (i + 1) rest

/-- Modelled from the spec: decrypt ciphertext bytes from stream position `i`. -/
def streamDec (key : Nat) (nonce : List Nat) : Nat → List Nat → List Nat
  | _, [] => []
  | i, b :: rest =>
    ((b + 256 - keystreamByte key nonce i % 256) % 256) :: streamDec key nonce (i + 1) rest

/-- Modelled from the spec: keyed authenticator over nonce and ciphertext;
byte-wise injective, so any single-byte change is detected. -/
def macBytes (key : Nat) (m : List Nat) : List Nat :=
  m.map (fun b => (b + key) % 256)

/-- Modelled from the spec: encrypt(reference) -> token over serialized
reference bytes. The token is nonce ++ ciphertext ++ authenticator. -/
def encryptBytes (key : Nat) (nonce : List Nat) (p : List Nat) : List Nat :=
  let m := nonce ++ streamEnc key nonce 0 p
  m ++ macBytes key m

/-- Modelled from the spec: decrypt(token) -> reference; verifies the
authenticator and fails with InvalidToken on any mismatch. -/
def decryptBytes (key : Nat) (tok : List Nat) : Except CodecError (List Nat) :=
  if tok.length % 2 = 0 ∧ 2 * nonceLen ≤ tok.length then
    let half := tok.length / 2
    let m := tok.take half
    let tag := tok.drop half
    if tag = macBytes key m then
      .ok (streamDec key (m.take nonceLen) 0 (m.drop nonceLen))
    else .error .invalidToken
  else .error .invalidToken

/-- Byte of a token at position `i` (0 when out of range), used to state
what a single-byte mutation changes. -/
def byteAt : List Nat → Nat → Nat
  | [], _ => 0
  | x :: _, 0 => x
  | _ :: rest, i + 1 => byteAt rest i

/-- Hex digit for the URL-safe token encoding. -/
def hexDigit (n : Nat) : Char :=
  if n < 10 then Char.ofNat ('0'.toNat + n) else Char.ofNat ('a'.toNat + n - 10)

/-- One byte as two URL-safe hex characters. -/
def byteToHex (b : Nat) : Str := [hexDigit (b / 16 % 16), hexDigit (b % 16)]

/-- URL-safe rendering of token bytes (hex needs no query-string escaping). -/
def bytesToHex (bs : List Nat) : Str := (bs.map byteToHex).flatten

/-- Modelled from the spec: process-wide codec key configuration. -/
def secureKeyModel : Nat := 167

/-- Modelled from the spec: the nonce used by the URL-encryption model (a
fixed value here; freshness does not affect the verified properties). -/
def secureNonceModel : List Nat := List.replicate nonceLen 5

/-- Modelled from the spec: secureurl.EncryptURL as used by the zee5
rewriter: encrypt the absolute URL into a URL-safe opaque token. -/
def EncryptURL (url : Str) : Str :=
  bytesToHex (encryptBytes secureKeyModel secureNonceModel (url.map Char.toNat))

/-! ### URL model (net/url as used by the sources)

The subset of net/url needed by the rewriter: parsing of
`scheme://host/path?query` and of relative references without dot segments,
and ResolveReference for those shapes. -/

structure GoURL where
  scheme : Str
  host : Str
  path : Str
  query : Str
deriving DecidableEq, Repr

/-- Query part of a URL tail: everything after the first question mark. -/
def queryAfter (s : Str) : Str :=
  match indexOfSub s (strOf "?") with
  | some i => s.drop (i + 1)
  | none => []

/-- Model of url.Parse for `scheme://host/path?query` and relative forms. -/
def parseURL (s : Str) : GoURL :=
  match indexOfSub s (strOf "://") with
  | some i =>
    let scheme := s.take i
    let rest := s.drop (i + 3)
    let host := rest.takeWhile (· ≠ '/')
    let pathq := rest.drop host.length
    { scheme := scheme, host := host, path := takeUntilChar '?' pathq, query := queryAfter pathq }
  | none =>
    { scheme := [], host := [], path := takeUntilChar '?' s, query := queryAfter s }

/-- Directory part of a path: everything up to and including the last slash. -/
def dirPart (p : Str) : Str := (p.reverse.dropWhile (· ≠ '/')).reverse

/-- Model of url.URL.ResolveReference for references without dot segments. -/
def resolveReference (base ref : GoURL) : GoURL :=
  if ref.scheme ≠ [] then ref
  else if startsWith ref.path (strOf "/") then
    { scheme := base.scheme, host := base.host, path := ref.path, query := ref.query }
  else if ref.path = [] ∧ ref.query = [] then base
  else if ref.path = [] then
    { scheme := base.scheme, host := base.host, path := base.path, query := ref.query }
  else
    { scheme := base.scheme, host := base.host,
      path := dirPart base.path ++ ref.path, query := ref.query }

/-- Model of url.URL.String(). -/
def urlToString (u : GoURL) : Str :=
  (if u.scheme ≠ [] then u.scheme ++ strOf "://" ++ u.host else [])
    ++ u.path ++ (if u.query ≠ [] then strOf "?" ++ u.query else [])

/-- baseURL.ResolveReference(relURL).String() on a raw reference string. -/
def resolveRefStr (base : GoURL) (rel : Str) : Str :=
  urlToString (resolveReference base (parseURL rel))

/-! ### Channel registry and upstream client (pkg/television/television.go) -/

/-- Custom channel record as decoded from the custom-channels file. -/
structure CustomChannel where
  ID : Str
  Name : Str
  URL : Str
  LogoURL : Str
  Category : Int
  Language : Int
  IsHD : Bool
deriving DecidableEq, Repr

/-- Catalog channel record (fields used by the television package). -/
structure Channel where
  ID : Str
  Name : Str
  URL : Str
  LogoURL : Str
  Category : Int
  Language : Int
  IsHD : Bool
deriving DecidableEq, Repr

/-- Custom channels configuration file content. -/
structure CustomChannelsConfig where
  Channels : List CustomChannel
deriving DecidableEq, Repr

/-- television.convertCustomConfigToChannels: forces the reserved "cc_"
marker onto every custom channel id that lacks it, copying other fields. -/
def convertCustomConfigToChannels (customConfig : CustomChannelsConfig) : List Channel :=
  customConfig.Channels.map (fun customChannel =>
    let channelID :=
      if startsWith customChannel.ID (strOf "cc_") then customChannel.ID
      else strOf "cc_" ++ customChannel.ID
    { ID := channelID
      Name := customChannel.Name
      URL := customChannel.URL
      LogoURL := customChannel.LogoURL
      Category := customChannel.Category
      Language := customChannel.Language
      IsHD := customChannel.IsHD })

/-- Reinterpreting a catalog channel as a custom-channel record with the same
fields, used to state idempotence of the load-and-normalize pipeline. -/
def channelToCustom (ch : Channel) : CustomChannel :=
  { ID := ch.ID, Name := ch.Name, URL := ch.URL, LogoURL := ch.LogoURL
    Category := ch.Category, Language := ch.Language, IsHD := ch.IsHD }

/-- Loop-body condition of television.FilterChannels: if both language and
category are set both must match, else whichever single filter is set must
match, else every channel is kept. -/
def channelMatches (language category : Int) (ch : Channel) : Bool :=
  if language != 0 && category != 0 then
    ch.Language == language && ch.Category == category
  else if language != 0 then
    ch.Language == language
  else if category != 0 then
    ch.Category == category
  else
    true

/-- television.FilterChannels: single-value filtering by language and
category where the value 0 acts as a wildcard. -/
def FilterChannels (channels : List Channel) (language category : Int) : List Channel :=
  match channels with
  | [] => []
  | ch :: rest =>
    if channelMatches language category ch then
      ch :: FilterChannels rest language category
    else
      FilterChannels rest language category

/-- Cached custom-channel map: channel id to channel. -/
abbrev ChanMap := List (Str × Channel)

/-- Go map assignment m[k] = v. -/
def mapSet (m : ChanMap) (k : Str) (v : Channel) : ChanMap :=
  match m with
  | [] => [(k, v)]
  | (k0, v0) :: rest => if k0 = k then (k, v) :: rest else (k0, v0) :: mapSet rest k v

/-- Go map read m[k]. -/
def mapLookup (m : ChanMap) (k : Str) : Option Channel :=
  match m with
  | [] => none
  | (k0, v0) :: rest => if k0 = k then some v0 else mapLookup rest k

/-- The map-building loop of loadAndCacheCustomChannels: next[channel.ID] =
channel for every loaded channel. -/
def buildChannelMap (channels : List Channel) : ChanMap :=
  channels.foldl (fun m ch => mapSet m ch.ID ch) []

/-- television.loadAndCacheCustomChannels as a cache transformer: `next` is
allocated empty, filled only when loading succeeded, and swapped into the
cache under the write lock in both cases. The swap argument is the complete
new map; the previous cache value is never mixed in. -/
def loadAndCacheCustomChannels (loadResult : Except String (List Channel))
    (oldCache : ChanMap) : ChanMap :=
  match loadResult with
  | .error _ => []
  | .ok channels => buildChannelMap channels

/-- Bitrate URL set of the upstream live/catchup response. -/
structure BitrateURLs where
  Auto : Str
  High : Str
  Medium : Str
  Low : Str
deriving DecidableEq, Repr

/-- DASH manifest and key-license URL pair of the upstream response. -/
structure MpdInfo where
  Result : Str
  Key : Str
deriving DecidableEq, Repr

/-- television.LiveURLOutput fields handled by the hdnea propagation code. -/
structure LiveURLOutput where
  Bitrates : BitrateURLs
  Result : Str
  Mpd : MpdInfo
  Hdnea : Str
deriving DecidableEq, Repr

/-- The extractHdneaFromURL closure in television.Live: the value after
"hdnea=" up to the next ampersand, or empty when absent. -/
def extractHdneaFromURL (u : Str) : Str :=
  if u = [] then []
  else
    match indexOfSub u (strOf "hdnea=") with
    | none => []
    | some idx => takeUntilChar '&' (u.drop (idx + (strOf "hdnea=").length))

/-- The appendHdnea closure in television.Live: append the token as a query
parameter to a non-empty URL that does not already carry one. -/
def appendHdnea (hdnea u : Str) : Str :=
  if u = [] then u
  else if containsSub u (strOf "hdnea=") then u
  else
    let sep := if containsSub u (strOf "?") then strOf "&" else strOf "?"
    u ++ sep ++ strOf "hdnea=" ++ hdnea

/-- Post-decode hdnea propagation of television.Live (lines 217 to 265):
extract the token from the auto bitrate URL, falling back to the DASH
manifest URL, record it in the Hdnea field, and append it to each URL field
that lacks it. -/
def livePostProcess (result : LiveURLOutput) : LiveURLOutput :=
  let hdneaAuto := extractHdneaFromURL result.Bitrates.Auto
  let hdnea := if hdneaAuto = [] then extractHdneaFromURL result.Mpd.Result else hdneaAuto
  if hdnea ≠ [] then
    { Bitrates :=
        { Auto := appendHdnea hdnea result.Bitrates.Auto
          High := appendHdnea hdnea result.Bitrates.High
          Medium := appendHdnea hdnea result.Bitrates.Medium
          Low := appendHdnea hdnea result.Bitrates.Low }
      Result := appendHdnea hdnea result.Result
      Mpd :=
        { Result := if result.Mpd.Result ≠ [] then appendHdnea hdnea result.Mpd.Result
                    else result.Mpd.Result
          Key := if result.Mpd.Key ≠ [] then appendHdnea hdnea result.Mpd.Key
                 else result.Mpd.Key }
      Hdnea := hdnea }
  else { result with Hdnea := hdnea }

/-- Outcome of one fasthttp Client.Do attempt in television.Live: the
transient peer-close error, any other transport error, or a response with a
status code and an optional decoded body (none models a JSON decode
failure). -/
inductive TransportOutcome where
  | transientClose
  | otherError (msg : Str)
  | response (status : Int) (decoded : Option LiveURLOutput)
deriving DecidableEq, Repr

/-- Result of television.Live in the embedding. `diverges` marks an
execution that consumed every recorded transport outcome while still
retrying. -/
inductive LiveResult where
  | ok (r : LiveURLOutput)
  | fatalTransport (msg : Str)
  | statusError (status : Int)
  | decodeError
  | diverges
deriving DecidableEq, Repr

/-- television.Live over a trace of transport outcomes, one per attempt: on
the transient peer-close error the code calls itself again (return
tv.Live(channelID)) with no retry counter; any other transport error is
fatal; a non-200 status is fatal; a decoded 200 body goes through hdnea
propagation. -/
def LiveGo : List TransportOutcome → LiveResult
  | [] => .diverges
  | .transientClose :: rest => LiveGo rest
  | .otherError m :: _ => .fatalTransport m
  | .response st dec :: _ =>
    if st != 200 then .statusError st
    else
      match dec with
      | none => .decodeError
      | some r => .ok (livePostProcess r)

/-! ### Zee5 manifest rewriter (pkg/plugins/zee5/util.go) -/

/-- One bitrate variant of a master playlist. -/
structure Variant where
  Bandwidth : Int
  URL : Str
deriving DecidableEq, Repr

/-- BANDWIDTH extraction from one #EXT-X-STREAM-INF line in getVariantURL:
split on commas, find the first part with the BANDWIDTH= marker, scan its
decimal value; on absence or scan failure the current value is kept. -/
def scanStreamInfBandwidth (trimmed : Str) (current : Int) : Int :=
  if containsSub trimmed (strOf "BANDWIDTH=") then
    match (splitOnChar ',' trimmed).find? (fun p => startsWith p (strOf "BANDWIDTH=")) with
    | some p =>
      match parseIntPre (trimPre p (strOf "BANDWIDTH=")) with
      | some n => n
      | none => current
    | none => current
  else current

/-- The line scan of getVariantURL: a stream-info tag updates the pending
bandwidth, other comments are skipped, and a non-empty URL line with a
positive pending bandwidth yields a variant (resolved against the base URL)
and resets the pending bandwidth. -/
def collectVariants (baseURL : GoURL) : List Str → Int → List Variant
  | [], _ => []
  | line :: rest, current =>
    let trimmed := trimSpace line
    if startsWith trimmed (strOf "#EXT-X-STREAM-INF") then
      collectVariants baseURL rest (scanStreamInfBandwidth trimmed current)
    else if startsWith trimmed (strOf "#") then
      collectVariants baseURL rest current
    else if trimmed ≠ [] ∧ current > 0 then
      { Bandwidth := current, URL := resolveRefStr baseURL trimmed }
        :: collectVariants baseURL rest 0
    else
      collectVariants baseURL rest current

/-- Go abs helper of util.go. -/
def absInt (x : Int) : Int := if x < 0 then -x else x

/-- The maxBw loop of getVariantURL. -/
def maxBandwidthOf (v0 : Variant) (vs : List Variant) : Int :=
  (v0 :: vs).foldl (fun m v => if v.Bandwidth > m then v.Bandwidth else m) v0.Bandwidth

/-- The minBw loop of getVariantURL. -/
def minBandwidthOf (v0 : Variant) (vs : List Variant) : Int :=
  (v0 :: vs).foldl (fun m v => if v.Bandwidth < m then v.Bandwidth else m) v0.Bandwidth

/-- zee5 getVariantURL: collect variants, then select by quality. Division
in the medium case is Go integer division; min and max bandwidth are
positive here, so Lean Int division coincides with it. -/
def getVariantURL (lines : List Str) (quality : Str) (baseURL : GoURL) : Except String Str :=
  match collectVariants baseURL lines 0 with
  | [] => .error "no variants found"
  | v0 :: vs =>
    let maxBw := maxBandwidthOf v0 vs
    let minBw := minBandwidthOf v0 vs
    if quality = strOf "high" then
      .ok ((v0 :: vs).foldl (fun acc v =>
        if v.Bandwidth > acc.Bandwidth then v else acc) v0).URL
    else if quality = strOf "low" then
      .ok ((v0 :: vs).foldl (fun acc v =>
        if v.Bandwidth < acc.Bandwidth then v else acc) v0).URL
    else if quality = strOf "medium" then
      let avg := (maxBw + minBw) / 2
      .ok ((v0 :: vs).foldl (fun acc v =>
        if absInt (v.Bandwidth - avg) < absInt (acc.Bandwidth - avg) then v else acc) v0).URL
    else .error "unknown quality"

/-- Selection following the words of the specification for quality medium:
the variant whose bandwidth is numerically closest to the midpoint between
minimum and maximum bandwidth (the exact midpoint, compared here through
doubled distances to avoid fractions), ties broken by first occurrence. -/
def specMediumVariant (variants : List Variant) : Option Variant :=
  match variants with
  | [] => none
  | v0 :: vs =>
    let twoMid := maxBandwidthOf v0 vs + minBandwidthOf v0 vs
    some ((v0 :: vs).foldl (fun acc v =>
      if absInt (2 * v.Bandwidth - twoMid) < absInt (2 * acc.Bandwidth - twoMid) then v
      else acc) v0)

/-- zee5 transformURL: classify a playlist reference and rewrite it. The
encoded auth token is hex, so url.Values.Encode adds no further escaping.
The model treats url.Parse as total and relURL.String() as the original
reference string, which holds for the URL shapes of playlists. -/
def transformURL (relURLStr : Str) (baseURL : GoURL) (isMaster : Bool) (pre : Str) : Str :=
  let relURL := parseURL relURLStr
  let absURL := urlToString (resolveReference baseURL relURL)
  let coded_url := EncryptURL absURL
  let path := if relURL.path = [] then relURLStr else relURL.path
  let isM3U8 := containsSub path (strOf ".m3u8")
  let isSegment := containsSub path (strOf ".ts") || containsSub path (strOf ".mp4")
  let segmentType := if containsSub path (strOf ".mp4") then strOf "mp4" else strOf "ts"
  if isM3U8 then
    pre ++ strOf "/zee5/render/playlist.m3u8?auth=" ++ coded_url
  else if isSegment && !isMaster then
    pre ++ strOf "/zee5/render/segment." ++ segmentType ++ strOf "?auth=" ++ coded_url
  else absURL

/-- First URI="..." attribute of a media/map tag line, as matched by the
reMediaURI regular expression of handlePlaylist. -/
def findURIAttr (s : Str) : Option Str :=
  match indexOfSub s (strOf "URI=\"") with
  | none => none
  | some i =>
    let rest := s.drop (i + (strOf "URI=\"").length)
    let body := rest.takeWhile (· ≠ '"')
    if body = [] ∨ body.length = rest.length then none else some body

/-- Per-line processing of zee5 handlePlaylist: blank lines and plain
comments pass through, EXT-X-MAP and EXT-X-MEDIA tags have their URI
attribute rewritten in place, and every other line is a reference handed to
transformURL. -/
def processPlaylistLine (baseURL : GoURL) (isMaster : Bool) (pre : Str) (line : Str) : Str :=
  let trimmed := trimSpace line
  if trimmed = [] then line
  else if startsWith trimmed (strOf "#EXT-X-MAP") || startsWith trimmed (strOf "#EXT-X-MEDIA") then
    match findURIAttr trimmed with
    | some originalURI =>
      replaceFirst line originalURI (transformURL originalURI baseURL isMaster pre)
    | none => line
  else if startsWith trimmed (strOf "#") then line
  else transformURL trimmed baseURL isMaster pre

/-! ### EPG pipeline (pkg/epg/epg.go) -/

/-- Flat-file state: path to file content (bytes as naturals). -/
abbrev FileSys := List (String × List Nat)

/-- Write or overwrite a file. -/
def fsWrite (fs : FileSys) (p : String) (d : List Nat) : FileSys :=
  match fs with
  | [] => [(p, d)]
  | (q, e) :: rest => if q = p then (p, d) :: rest else (q, e) :: fsWrite rest p d

/-- Read a file. -/
def fsRead (fs : FileSys) (p : String) : Option (List Nat) :=
  match fs with
  | [] => none
  | (q, e) :: rest => if q = p then some e else fsRead rest p

/-- Remove a file. -/
def fsRemove (fs : FileSys) (p : String) : FileSys :=
  match fs with
  | [] => []
  | (q, e) :: rest => if q = p then fsRemove rest p else (q, e) :: fsRemove rest p

/-- Gzip framing model: magic bytes prepended, content preserved. -/
def gzipBytes (d : List Nat) : List Nat := 31 :: 139 :: d

/-- The XML header prepended by GenXMLGz, as bytes. -/
def xmlHeaderBytes : List Nat :=
  (strOf "<?xml version=\"1.0\" encoding=\"UTF-8\"?>").map Char.toNat

/-- epg.GenXMLGz as a file-system transformer. The outcome of genXML and of
the create/write system calls are inputs. os.Create(filename) truncates the
final artifact path immediately; the gzip stream is then written to that
same path, with no temporary staging. -/
def GenXMLGz (filename : String) (genResult : Except String (List Nat))
    (createOk gzWriteOk : Bool) (fs : FileSys) : Except String Unit × FileSys :=
  match genResult with
  | .error e => (.error e, fs)
  | .ok xmlBody =>
    let xmlFull := xmlHeaderBytes ++ xmlBody
    if !createOk then (.error "create failed", fs)
    else
      let fs1 := fsWrite fs filename []
      if gzWriteOk then (.ok (), fsWrite fs1 filename (gzipBytes xmlFull))
      else (.error "gzip write failed", fs1)

/-- The write stage of epg.DownloadExternalEPG after a successful fetch:
write the body to filename.tmp, remove the target, rename the temp file
over it; a failed temp write leaves the target untouched. -/
def DownloadExternalEPGWrite (filename : String) (data : List Nat)
    (writeTmpOk : Bool) (fs : FileSys) : Except String Unit × FileSys :=
  let tmp := filename ++ ".tmp"
  if !writeTmpOk then (.error "write tmp failed", fs)
  else
    let fs1 := fsWrite fs tmp data
    let fs2 := fsRemove fs1 filename
    (.ok (), fsWrite (fsRemove fs2 tmp) filename data)

/-- crypto/rand draw for the scheduling hour with the deterministic
fallback constant defaultRandomHour = 2 when the source fails. -/
def randomHourValue (draw : Option Int) : Int :=
  match draw with
  | some v => v
  | none => 2

/-- crypto/rand draw for the scheduling minute with the deterministic
fallback constant defaultRandomMinute = 30 when the source fails. -/
def randomMinuteValue (draw : Option Int) : Int :=
  match draw with
  | some v => v
  | none => 30

/-- epg.Init scheduling arithmetic in minutes since an epoch, for a current
time on UTC day `nowDay`: time.Date(year, month, day+1, -5+hour, -30+min,
0, 0, time.UTC) normalizes negative components by plain offsetting from the
following midnight. -/
def epgScheduleMinutes (nowDay : Int) (hourDraw minuteDraw : Option Int) : Int :=
  let random_hour := -5 + randomHourValue hourDraw
  let random_min := -30 + randomMinuteValue minuteDraw
  (nowDay + 1) * 1440 + random_hour * 60 + random_min

/-- UTC calendar day of an absolute minute count. -/
def calendarDayOf (totalMinutes : Int) : Int := totalMinutes / 1440

/-! ### Concrete demonstration inputs -/

/-- Demonstration catalog from the spec: 5 channels with languages
{1,1,6,6,9} and categories {5,5,5,8,8}. -/
def demoChannels : List Channel :=
  [{ ID := strOf "1", Name := strOf "c1", URL := [], LogoURL := [],
     Category := 5, Language := 1, IsHD := false },
   { ID := strOf "2", Name := strOf "c2", URL := [], LogoURL := [],
     Category := 5, Language := 1, IsHD := false },
   { ID := strOf "3", Name := strOf "c3", URL := [], LogoURL := [],
     Category := 5, Language := 6, IsHD := false },
   { ID := strOf "4", Name := strOf "c4", URL := [], LogoURL := [],
     Category := 8, Language := 6, IsHD := false },
   { ID := strOf "5", Name := strOf "c5", URL := [], LogoURL := [],
     Category := 8, Language := 9, IsHD := false }]

/-- Upstream live response whose auto bitrate URL carries hdnea=ABC and
whose other URL fields lack it. -/
def demoLive : LiveURLOutput :=
  { Bitrates :=
      { Auto := strOf "http://cdn/a.m3u8?hdnea=ABC"
        High := strOf "http://cdn/h.m3u8"
        Medium := strOf "http://cdn/m.m3u8?x=1"
        Low := strOf "http://cdn/l.m3u8" }
    Result := strOf "http://cdn/r.m3u8"
    Mpd := { Result := [], Key := [] }
    Hdnea := [] }

/-- A non-empty previously cached custom-channel map. -/
def demoCache : ChanMap :=
  [(strOf "cc_1", { ID := strOf "cc_1", Name := strOf "old", URL := [], LogoURL := [],
                    Category := 1, Language := 1, IsHD := false })]

/-- Base URL of the demonstration playlists. -/
def demoBase : GoURL := parseURL (strOf "http://h/live/master.m3u8")

/-- Master playlist with variant bandwidths 100, 500, 900. -/
def demoMasterLines : List Str :=
  [strOf "#EXTM3U",
   strOf "#EXT-X-STREAM-INF:PROGRAM-ID=1,BANDWIDTH=100",
   strOf "http://h/v100.m3u8",
   strOf "#EXT-X-STREAM-INF:PROGRAM-ID=1,BANDWIDTH=500",
   strOf "http://h/v500.m3u8",
   strOf "#EXT-X-STREAM-INF:PROGRAM-ID=1,BANDWIDTH=900",
   strOf "http://h/v900.m3u8"]

/-- Master playlist with variant bandwidths 1, 7, 6, 12: the exact midpoint
is 6.5, so the first variant at distance one half is the bandwidth-7 one,
while the code, using the floored midpoint 6, selects the bandwidth-6 one. -/
def cxMasterLines : List Str :=
  [strOf "#EXT-X-STREAM-INF:PROGRAM-ID=1,BANDWIDTH=1",
   strOf "http://h/v1.m3u8",
   strOf "#EXT-X-STREAM-INF:PROGRAM-ID=1,BANDWIDTH=7",
   strOf "http://h/v7.m3u8",
   strOf "#EXT-X-STREAM-INF:PROGRAM-ID=1,BANDWIDTH=6",
   strOf "http://h/v6.m3u8",
   strOf "#EXT-X-STREAM-INF:PROGRAM-ID=1,BANDWIDTH=12",
   strOf "http://h/v12.m3u8"]

/-- Decidable equality for Except results, used to evaluate the embedding on
concrete inputs. -/
instance instDecEqExceptModel {ε α : Type} [DecidableEq ε] [DecidableEq α] :
    DecidableEq (Except ε α)
  | .ok x, .ok y =>
    if h : x = y then isTrue (congrArg Except.ok h)
    else isFalse (fun hc => h (Except.ok.inj hc))
  | .error x, .error y =>
    if h : x = y then isTrue (congrArg Except.error h)
    else isFalse (fun hc => h (Except.error.inj hc))
  | .ok _, .error _ => isFalse (fun hc => Except.noConfusion hc)
  | .error _, .ok _ => isFalse (fun hc => Except.noConfusion hc)

/-- Statement helper: `m` is the first element of `l` attaining the minimum
of the cost `f` (every element has cost at least that of `m`, and every
element before `m` has strictly greater cost). -/
def isFirstMinBy {α : Type} (f : α → Int) (m : α) (l : List α) : Prop :=
  m ∈ l ∧ (∀ v ∈ l, f m ≤ f v)
    ∧ ∃ pre post, l = pre ++ m :: post ∧ ∀ v ∈ pre, f m < f v

/-- Statement helper: `m` is the first element of `l` attaining the maximum
of the cost `f`. -/
def isFirstMaxBy {α : Type} (f : α → Int) (m : α) (l : List α) : Prop :=
  m ∈ l ∧ (∀ v ∈ l, f v ≤ f m)
    ∧ ∃ pre post, l = pre ++ m :: post ∧ ∀ v ∈ pre, f v < f m

/-- Path component used by the classification in transformURL: the parsed
relative path, or the raw reference when the parsed path is empty. -/
def refPath (relURLStr : Str) : Str :=
  let relURL := parseURL relURLStr
  if relURL.path = [] then relURLStr else relURL.path

/-- Statement helper for the hdnea propagation claim: if the URL field value
`u` was non-empty and lacked an hdnea parameter, then the post-processed
value is `u` with hdnea=t appended after the proper separator, and it
carries the substring hdnea=t. -/
def hdneaAppendedTo (t u post : Str) : Prop :=
  u ≠ [] → containsSub u (strOf "hdnea=") = false →
    post = u ++ (if containsSub u (strOf "?") = true then strOf "&" else strOf "?")
        ++ strOf "hdnea=" ++ t
    ∧ containsSub post (strOf "hdnea=" ++ t) = true

/-! ## Theorems -/

/-! ### Shared string lemmas -/

lemma startsWith_append_self (p s : Str) : startsWith (p ++ s) p = true := by
  induction p with
  | nil => cases s <;> rfl
  | cons c p ih => simp [startsWith, ih]

lemma startsWith_self (s : Str) : startsWith s s = true := by
  simpa using startsWith_append_self s []

lemma containsSub_of_startsWith (s sub : Str) (h : startsWith s sub = true) :
    containsSub s sub = true := by
  cases s with
  | nil =>
    cases sub with
    | nil => rfl
    | cons d p => simp [startsWith] at h
  | cons c s' => simp [containsSub, indexOfSub, h]

lemma containsSub_append_right (a b sub : Str) (h : containsSub b sub = true) :
    containsSub (a ++ b) sub = true := by
  induction a with
  | nil => simpa using h
  | cons c a ih =>
    by_cases hs : startsWith (c :: (a ++ b)) sub = true
    · simp [containsSub, indexOfSub, hs]
    · simp only [Bool.not_eq_true] at hs
      simpa [containsSub, indexOfSub, hs, Option.isSome_map] using ih

lemma containsSub_self (s : Str) : containsSub s s = true :=
  containsSub_of_startsWith s s (startsWith_self s)

/-! ### C9: custom channel id normalization -/

/-- Per-id normalization applied by convertCustomConfigToChannels. -/
def normalizeID (id : Str) : Str :=
  if startsWith id (strOf "cc_") then id else strOf "cc_" ++ id

lemma convert_map_id (cfg : CustomChannelsConfig) :
    (convertCustomConfigToChannels cfg).map Channel.ID
      = cfg.Channels.map (fun c => normalizeID c.ID) := by
  simp [convertCustomConfigToChannels, normalizeID]

/-- C9: loading custom channels with ids ["1", "cc_2"] yields catalog ids
["cc_1", "cc_2"], and normalization is idempotent: converting an
already-converted catalog (reinterpreted as a custom config with the same
fields) changes nothing, since already-prefixed ids are left untouched. -/
theorem convertCustomConfigToChannels_prefix_idempotent :
    (convertCustomConfigToChannels
        ⟨[{ ID := strOf "1", Name := strOf "A", URL := strOf "u1",
            LogoURL := strOf "l1", Category := 1, Language := 2, IsHD := false },
          { ID := strOf "cc_2", Name := strOf "B", URL := strOf "u2",
            LogoURL := strOf "l2", Category := 3, Language := 4, IsHD := true }]⟩).map
        Channel.ID
      = [strOf "cc_1", strOf "cc_2"]
    ∧ ∀ cfg : CustomChannelsConfig,
        convertCustomConfigToChannels
            ⟨(convertCustomConfigToChannels cfg).map channelToCustom⟩
          = convertCustomConfigToChannels cfg := by
  constructor
  · decide
  · intro cfg
    show ((cfg.Channels.map _).map channelToCustom).map _ = cfg.Channels.map _
    rw [List.map_map, List.map_map]
    apply List.map_congr_left
    intro cc _
    simp only [Function.comp, convertCustomConfigToChannels, channelToCustom]
    by_cases h : startsWith cc.ID (strOf "cc_") = true
    · simp [h]
    · simp [h, startsWith_append_self]

/-! ### C10: single-value channel filtering -/

lemma FilterChannels_eq_filter (channels : List Channel) (language category : Int) :
    FilterChannels channels language category
      = channels.filter (channelMatches language category) := by
  induction channels with
  | nil => rfl
  | cons ch rest ih =>
    by_cases h : channelMatches language category ch = true
    · simp [FilterChannels, List.filter_cons, h, ih]
    · simp only [Bool.not_eq_true] at h
      simp [FilterChannels, List.filter_cons, h, ih]

lemma channelMatches_zero_zero (ch : Channel) : channelMatches 0 0 ch = true := by
  simp [channelMatches]

lemma channelMatches_lang_only (l : Int) (hl : l ≠ 0) (ch : Channel) :
    channelMatches l 0 ch = (ch.Language == l) := by
  simp [channelMatches, hl]

lemma channelMatches_cat_only (c : Int) (hc : c ≠ 0) (ch : Channel) :
    channelMatches 0 c ch = (ch.Category == c) := by
  simp [channelMatches, hc]

lemma channelMatches_both (l c : Int) (hl : l ≠ 0) (hc : c ≠ 0) (ch : Channel) :
    channelMatches l c ch = (ch.Language == l && ch.Category == c) := by
  simp [channelMatches, hl, hc]

lemma channelMatches_lang_of_true (l c : Int) (hl : l ≠ 0) (ch : Channel)
    (h : channelMatches l c ch = true) : ch.Language = l := by
  by_cases hc : c = 0
  · subst hc; rw [channelMatches_lang_only l hl ch] at h; exact eq_of_beq h
  · rw [channelMatches_both l c hl hc ch] at h
    exact eq_of_beq (Bool.and_elim_left h)

lemma channelMatches_cat_of_true (l c : Int) (hc : c ≠ 0) (ch : Channel)
    (h : channelMatches l c ch = true) : ch.Category = c := by
  by_cases hl : l = 0
  · subst hl; rw [channelMatches_cat_only c hc ch] at h; exact eq_of_beq h
  · rw [channelMatches_both l c hl hc ch] at h
    exact eq_of_beq (Bool.and_elim_right h)

/-- C10: the value 0 is a wildcard in FilterChannels: both filters 0 returns
all channels in order; a single non-zero filter returns exactly the channels
whose corresponding field equals it; both non-zero requires both fields to
match; consequently every channel selected under a non-zero language (resp.
category) filter has exactly that field value, so a channel whose field is 0
can never be selected by a non-zero filter on that field. -/
theorem FilterChannels_wildcard_and_match (channels : List Channel) (l c : Int) :
    FilterChannels channels 0 0 = channels
    ∧ (l ≠ 0 → FilterChannels channels l 0
        = channels.filter (fun ch => ch.Language == l))
    ∧ (c ≠ 0 → FilterChannels channels 0 c
        = channels.filter (fun ch => ch.Category == c))
    ∧ (l ≠ 0 → c ≠ 0 → FilterChannels channels l c
        = channels.filter (fun ch => ch.Language == l && ch.Category == c))
    ∧ (l ≠ 0 → ∀ ch ∈ FilterChannels channels l c, ch.Language = l)
    ∧ (c ≠ 0 → ∀ ch ∈ FilterChannels channels l c, ch.Category = c) := by
  refine ⟨?_, ?_, ?_, ?_, ?_, ?_⟩
  · rw [FilterChannels_eq_filter]
    exact List.filter_eq_self.mpr (fun ch _ => channelMatches_zero_zero ch)
  · intro hl
    rw [FilterChannels_eq_filter]
    exact List.filter_congr (fun ch _ => channelMatches_lang_only l hl ch)
  · intro hc
    rw [FilterChannels_eq_filter]
    exact List.filter_congr (fun ch _ => channelMatches_cat_only c hc ch)
  · intro hl hc
    rw [FilterChannels_eq_filter]
    exact List.filter_congr (fun ch _ => channelMatches_both l c hl hc ch)
  · intro hl ch hm1
    exact channelMatches_lang_of_true l c hl ch
      (List.of_mem_filter (FilterChannels_eq_filter channels l c ▸ hm1))
  · intro hc ch hm2
    exact channelMatches_cat_of_true l c hc ch
      (List.of_mem_filter (FilterChannels_eq_filter channels l c ▸ hm2))

/-- Witness for C10: filtering the 5-channel demo catalog by language 6
returns exactly the two language-6 channels regardless of category. -/
theorem FilterChannels_wildcard_and_match_witness :
    FilterChannels demoChannels 6 0
      = [demoChannels.get ⟨2, by decide⟩, demoChannels.get ⟨3, by decide⟩] := by
  have h := (FilterChannels_wildcard_and_match demoChannels 6 0).2.1 (by decide)
  rw [h]; decide

/-! ### C6: hdnea extraction and propagation in Live -/

lemma containsSub_append_sep_hdnea (u sep t : Str) :
    containsSub (u ++ sep ++ strOf "hdnea=" ++ t) (strOf "hdnea=" ++ t) = true := by
  have h : u ++ sep ++ strOf "hdnea=" ++ t = (u ++ sep) ++ (strOf "hdnea=" ++ t) := by
    simp [List.append_assoc]
  rw [h]
  exact containsSub_append_right _ _ _ (containsSub_self _)

lemma hdneaAppendedTo_appendHdnea (t u : Str) : hdneaAppendedTo t u (appendHdnea t u) := by
  intro hu hnc
  have he : appendHdnea t u
      = u ++ (if containsSub u (strOf "?") = true then strOf "&" else strOf "?")
          ++ strOf "hdnea=" ++ t := by
    simp [appendHdnea, hu, hnc]
  exact ⟨he, by rw [he]; exact containsSub_append_sep_hdnea u _ t⟩

lemma hdneaAppendedTo_guarded (t u : Str) :
    hdneaAppendedTo t u (if u ≠ [] then appendHdnea t u else u) := by
  intro hu hnc
  rw [if_pos hu]
  exact hdneaAppendedTo_appendHdnea t u hu hnc

/-- C6: when the decoded upstream response carries an hdnea token in its auto
bitrate URL, the post-processing of Live records that token in the Hdnea
field and appends it to every non-empty URL field (high, medium, low, the
HLS result, the DASH manifest and key URLs) that lacked it. -/
theorem Live_hdnea_propagation (r : LiveURLOutput) (t : Str)
    (hauto : extractHdneaFromURL r.Bitrates.Auto = t) (ht : t ≠ []) :
    (livePostProcess r).Hdnea = t
    ∧ hdneaAppendedTo t r.Bitrates.Auto (livePostProcess r).Bitrates.Auto
    ∧ hdneaAppendedTo t r.Bitrates.High (livePostProcess r).Bitrates.High
    ∧ hdneaAppendedTo t r.Bitrates.Medium (livePostProcess r).Bitrates.Medium
    ∧ hdneaAppendedTo t r.Bitrates.Low (livePostProcess r).Bitrates.Low
    ∧ hdneaAppendedTo t r.Result (livePostProcess r).Result
    ∧ hdneaAppendedTo t r.Mpd.Result (livePostProcess r).Mpd.Result
    ∧ hdneaAppendedTo t r.Mpd.Key (livePostProcess r).Mpd.Key := by
  have hA : (livePostProcess r).Bitrates.Auto = appendHdnea t r.Bitrates.Auto := by
    simp [livePostProcess, hauto, ht]
  have hH : (livePostProcess r).Bitrates.High = appendHdnea t r.Bitrates.High := by
    simp [livePostProcess, hauto, ht]
  have hM : (livePostProcess r).Bitrates.Medium = appendHdnea t r.Bitrates.Medium := by
    simp [livePostProcess, hauto, ht]
  have hL : (livePostProcess r).Bitrates.Low = appendHdnea t r.Bitrates.Low := by
    simp [livePostProcess, hauto, ht]
  have hR : (livePostProcess r).Result = appendHdnea t r.Result := by
    simp [livePostProcess, hauto, ht]
  have hMR : (livePostProcess r).Mpd.Result
      = if r.Mpd.Result ≠ [] then appendHdnea t r.Mpd.Result else r.Mpd.Result := by
    simp [livePostProcess, hauto, ht]
  have hMK : (livePostProcess r).Mpd.Key
      = if r.Mpd.Key ≠ [] then appendHdnea t r.Mpd.Key else r.Mpd.Key := by
    simp [livePostProcess, hauto, ht]
  refine ⟨by simp [livePostProcess, hauto, ht], ?_, ?_, ?_, ?_, ?_, ?_, ?_⟩
  · rw [hA]; exact hdneaAppendedTo_appendHdnea t _
  · rw [hH]; exact hdneaAppendedTo_appendHdnea t _
  · rw [hM]; exact hdneaAppendedTo_appendHdnea t _
  · rw [hL]; exact hdneaAppendedTo_appendHdnea t _
  · rw [hR]; exact hdneaAppendedTo_appendHdnea t _
  · rw [hMR]; exact hdneaAppendedTo_guarded t _
  · rw [hMK]; exact hdneaAppendedTo_guarded t _

/-- Witness for C6: on the demonstration response with hdnea=ABC in the auto
URL, the token field becomes ABC and the high URL gains hdnea=ABC. -/
theorem Live_hdnea_propagation_witness :
    (livePostProcess demoLive).Hdnea = strOf "ABC"
    ∧ (livePostProcess demoLive).Bitrates.High = strOf "http://cdn/h.m3u8?hdnea=ABC" := by
  have h := Live_hdnea_propagation demoLive (strOf "ABC") (by decide) (by decide)
  refine ⟨h.1, ?_⟩
  have h2 := h.2.2.1 (by decide) (by decide)
  rw [h2.1]; decide

/-! ### C2: custom-channel registry reload -/

lemma mapLookup_mapSet_self (m : ChanMap) (k : Str) (v : Channel) :
    mapLookup (mapSet m k v) k = some v := by
  induction m with
  | nil => simp [mapSet, mapLookup]
  | cons kv rest ih =>
    obtain ⟨k0, v0⟩ := kv
    by_cases h : k0 = k
    · subst h; simp [mapSet, mapLookup]
    · simp [mapSet, mapLookup, h, ih]

lemma mapLookup_mapSet_ne (m : ChanMap) (k k' : Str) (v : Channel) (hne : k' ≠ k) :
    mapLookup (mapSet m k v) k' = mapLookup m k' := by
  induction m with
  | nil => simp [mapSet, mapLookup, Ne.symm hne]
  | cons kv rest ih =>
    obtain ⟨k0, v0⟩ := kv
    by_cases h : k0 = k
    · subst h
      simp [mapSet, mapLookup, Ne.symm hne]
    · by_cases h2 : k0 = k'
      · subst h2; simp [mapSet, mapLookup, h]
      · simp [mapSet, mapLookup, h, h2, ih]

lemma mapLookup_isSome_foldl (chs : List Channel) (m : ChanMap) (k : Str)
    (h : (mapLookup m k).isSome = true) :
    (mapLookup (chs.foldl (fun acc ch => mapSet acc ch.ID ch) m) k).isSome = true := by
  induction chs generalizing m with
  | nil => simpa using h
  | cons ch rest ih =>
    simp only [List.foldl_cons]
    apply ih
    by_cases hk : k = ch.ID
    · subst hk; rw [mapLookup_mapSet_self]; rfl
    · rw [mapLookup_mapSet_ne _ _ _ _ hk]; exact h

lemma buildFold_mem_isSome (chs : List Channel) (ch : Channel) (hmem : ch ∈ chs) :
    ∀ m : ChanMap,
      (mapLookup (chs.foldl (fun acc c => mapSet acc c.ID c) m) ch.ID).isSome = true := by
  induction chs with
  | nil => cases hmem
  | cons c0 rest ih =>
    intro m
    simp only [List.foldl_cons]
    rcases List.mem_cons.mp hmem with heq | hmem2
    · subst heq
      apply mapLookup_isSome_foldl
      rw [mapLookup_mapSet_self]; rfl
    · exact ih hmem2 _

lemma buildChannelMap_complete (chs : List Channel) (ch : Channel) (hmem : ch ∈ chs) :
    (mapLookup (buildChannelMap chs) ch.ID).isSome = true :=
  buildFold_mem_isSome chs ch hmem []

lemma mapLookup_mapSet_cases (m : ChanMap) (k k' : Str) (v v' : Channel)
    (h : mapLookup (mapSet m k v) k' = some v') :
    (k' = k ∧ v' = v) ∨ mapLookup m k' = some v' := by
  by_cases hk : k' = k
  · subst hk; rw [mapLookup_mapSet_self] at h
    exact Or.inl ⟨rfl, (Option.some.inj h).symm⟩
  · rw [mapLookup_mapSet_ne _ _ _ _ hk] at h; exact Or.inr h

lemma foldl_lookup_source (chs : List Channel) (m : ChanMap) (k : Str) (v : Channel)
    (h : mapLookup (chs.foldl (fun acc ch => mapSet acc ch.ID ch) m) k = some v) :
    (v ∈ chs ∧ v.ID = k) ∨ mapLookup m k = some v := by
  induction chs generalizing m with
  | nil => exact Or.inr h
  | cons ch rest ih =>
    simp only [List.foldl_cons] at h
    rcases ih (mapSet m ch.ID ch) h with hin | hbase
    · exact Or.inl ⟨List.mem_cons_of_mem _ hin.1, hin.2⟩
    · rcases mapLookup_mapSet_cases m ch.ID k ch v hbase with ⟨hk, hv⟩ | hm
      · subst hv; exact Or.inl ⟨List.mem_cons_self _ _, hk.symm⟩
      · exact Or.inr hm

/-- Counterexample for C2: a reload whose load fails does not leave the
previously cached map intact; the cache is replaced (by a fresh empty map). -/
theorem loadAndCacheCustomChannels_error_counterexample :
    loadAndCacheCustomChannels (.error "parse error") demoCache ≠ demoCache := by
  decide

/-- C2 amended: the swapped-in map is always a complete map: on a successful
load it is exactly the map built from every loaded channel (each loaded id
is present and every entry comes from the loaded list with a matching id),
so readers never observe a half-built map; on a failed load, however, the
cache is replaced by a fresh empty map instead of keeping the previous one. -/
theorem loadAndCacheCustomChannels_swaps_complete_map
    (loadResult : Except String (List Channel)) (oldCache : ChanMap) :
    (∀ e, loadResult = .error e →
      loadAndCacheCustomChannels loadResult oldCache = [])
    ∧ ∀ chs, loadResult = .ok chs →
        loadAndCacheCustomChannels loadResult oldCache = buildChannelMap chs
        ∧ (∀ ch ∈ chs, (mapLookup (buildChannelMap chs) ch.ID).isSome = true)
        ∧ (∀ k v, mapLookup (buildChannelMap chs) k = some v → v ∈ chs ∧ v.ID = k) := by
  constructor
  · intro e he; subst he; rfl
  · intro chs hok; subst hok
    refine ⟨rfl, fun ch hmem => buildChannelMap_complete chs ch hmem, fun k v h => ?_⟩
    rcases foldl_lookup_source chs [] k v h with hs | hbase
    · exact hs
    · simp [mapLookup] at hbase

/-- Witness for C2: swapping in the demo catalog gives the fully built map
and the id of the third demo channel is present. -/
theorem loadAndCacheCustomChannels_swaps_complete_map_witness :
    loadAndCacheCustomChannels (.ok demoChannels) demoCache = buildChannelMap demoChannels
    ∧ (mapLookup (buildChannelMap demoChannels) (strOf "3")).isSome = true := by
  have h := (loadAndCacheCustomChannels_swaps_complete_map (.ok demoChannels) demoCache).2
      demoChannels rfl
  exact ⟨h.1, by decide⟩

/-! ### C3: retry policy of Live -/

/-- C3 evaluation at the failing input: on a trace of three consecutive
transient peer-close errors followed by a success, Live keeps retrying and
succeeds on the fourth attempt (the claim allows exactly one retry);
a trace of transient errors of any length is consumed entirely without
giving up, so the recursion has no bound; any other transport error is
fatal immediately with no retry. -/
theorem Live_retries_beyond_one :
    LiveGo [.transientClose, .transientClose, .transientClose,
            .response 200 (some demoLive)] = .ok (livePostProcess demoLive)
    ∧ (∀ n, LiveGo (List.replicate n .transientClose) = .diverges)
    ∧ (∀ msg rest, LiveGo (.otherError msg :: rest) = .fatalTransport msg) := by
  refine ⟨rfl, ?_, fun msg rest => rfl⟩
  intro n
  induction n with
  | zero => rfl
  | succ n ih => simpa [List.replicate, LiveGo] using ih

/-! ### C8: EPG scheduling -/

/-- Counterexample for C8: with the hour draw 0 and minute draw 0 on UTC day
0, the scheduled instant is minute 1110 of day 0 (18:30 UTC), which lies on
the same UTC calendar day as the current time, not on the following one. -/
theorem epgSchedule_same_day_counterexample :
    epgScheduleMinutes 0 (some 0) (some 0) = 1110
    ∧ calendarDayOf (epgScheduleMinutes 0 (some 0) (some 0)) = 0
    ∧ (0 : Int) ≠ 1 := by
  refine ⟨by decide, by decide, by decide⟩

/-- C8 amended: the next run is scheduled inside a randomized window between
2h31m and 5h30m before the following UTC midnight, that is between 18:30
and 21:29 UTC of the current calendar day (which is 00:00 to 02:59 of the
following calendar day at UTC+05:30, offset 330 minutes); on failure of the
crypto/rand source the deterministic fallback constants hour 2 and minute
30 produce 21:00 UTC of the same day. -/
theorem epgSchedule_window (nowDay hb mb : Int)
    (hd : 0 ≤ nowDay) (hb0 : 0 ≤ hb) (hb3 : hb < 3) (mb0 : 0 ≤ mb) (mb60 : mb < 60) :
    nowDay * 1440 + 1110 ≤ epgScheduleMinutes nowDay (some hb) (some mb)
    ∧ epgScheduleMinutes nowDay (some hb) (some mb) ≤ nowDay * 1440 + 1289
    ∧ calendarDayOf (epgScheduleMinutes nowDay (some hb) (some mb)) = nowDay
    ∧ calendarDayOf (epgScheduleMinutes nowDay (some hb) (some mb) + 330) = nowDay + 1
    ∧ epgScheduleMinutes nowDay none none = nowDay * 1440 + 1260
    ∧ calendarDayOf (epgScheduleMinutes nowDay none none) = nowDay := by
  simp only [epgScheduleMinutes, calendarDayOf, randomHourValue, randomMinuteValue]
  omega

/-- Witness for C8: on day 0 with draws hour 1 and minute 0, the schedule
falls on UTC day 0, and the fallback schedule is minute 1260 (21:00 UTC). -/
theorem epgSchedule_window_witness :
    calendarDayOf (epgScheduleMinutes 0 (some 1) (some 0)) = 0
    ∧ epgScheduleMinutes 0 none none = 1260 := by
  have h := epgSchedule_window 0 1 0 (by decide) (by decide) (by decide)
      (by decide) (by decide)
  exact ⟨h.2.2.1, h.2.2.2.2.1⟩

/-! ### C7: EPG artifact staging -/

/-- C7 evaluation at the failing input: with a pre-existing artifact of
bytes [1,2,3], a successful assembly followed by a failed gzip write leaves
the artifact truncated to the empty file, because GenXMLGz opens the final
path directly with os.Create; a failure during assembly (before the create)
leaves the artifact intact, and the external-download write stage leaves it
intact on a failed temporary write (it stages through filename.tmp). -/
theorem GenXMLGz_truncates_artifact_on_write_failure :
    (GenXMLGz "epg.xml.gz" (.ok [10]) true false [("epg.xml.gz", [1, 2, 3])]).1
        = .error "gzip write failed"
    ∧ fsRead (GenXMLGz "epg.xml.gz" (.ok [10]) true false
        [("epg.xml.gz", [1, 2, 3])]).2 "epg.xml.gz" = some []
    ∧ fsRead [("epg.xml.gz", [1, 2, 3])] "epg.xml.gz" = some [1, 2, 3]
    ∧ fsRead (GenXMLGz "epg.xml.gz" (.ok [10]) true false
          [("epg.xml.gz", [1, 2, 3])]).2 "epg.xml.gz"
        ≠ fsRead [("epg.xml.gz", [1, 2, 3])] "epg.xml.gz"
    ∧ (GenXMLGz "epg.xml.gz" (.error "assembly failed") true false
        [("epg.xml.gz", [1, 2, 3])]).2 = [("epg.xml.gz", [1, 2, 3])]
    ∧ (DownloadExternalEPGWrite "epg.xml.gz" [9] false
        [("epg.xml.gz", [1, 2, 3])]).2 = [("epg.xml.gz", [1, 2, 3])] := by
  refine ⟨rfl, rfl, rfl, by decide, rfl, rfl⟩

/-! ### C4: bitrate variant selection -/

lemma foldl_isFirstMinBy {α : Type} (f : α → Int) (v0 : α) (vs : List α) :
    isFirstMinBy f (vs.foldl (fun acc v => if f v < f acc then v else acc) v0) (v0 :: vs) := by
  induction vs generalizing v0 with
  | nil =>
    refine ⟨List.mem_cons_self _ _, ?_, [], [], rfl, by intro w hw; cases hw⟩
    intro w hw
    rcases List.mem_cons.mp hw with h | h
    · subst h; exact le_refl _
    · cases h
  | cons v vs ih =>
    simp only [List.foldl_cons]
    by_cases hf : f v < f v0
    · rw [if_pos hf]
      obtain ⟨hmem, hmin, pre, post, hdec, hpre⟩ := ih v
      refine ⟨List.mem_cons_of_mem _ hmem, ?_, v0 :: pre, post, ?_, ?_⟩
      · intro w hw
        rcases List.mem_cons.mp hw with h | h
        · subst h; exact le_of_lt (lt_of_le_of_lt (hmin v (List.mem_cons_self _ _)) hf)
        · exact hmin w h
      · rw [List.cons_append, ← hdec]
      · intro w hw
        rcases List.mem_cons.mp hw with h | h
        · subst h; exact lt_of_le_of_lt (hmin v (List.mem_cons_self _ _)) hf
        · exact hpre w h
    · rw [if_neg hf]
      obtain ⟨hmem, hmin, pre, post, hdec, hpre⟩ := ih v0
      have hle : f v0 ≤ f v := le_of_not_lt hf
      refine ⟨?_, ?_, ?_⟩
      · rcases List.mem_cons.mp hmem with h | h
        · rw [h]; exact List.mem_cons_self _ _
        · exact List.mem_cons_of_mem _ (List.mem_cons_of_mem _ h)
      · intro w hw
        rcases List.mem_cons.mp hw with h | h
        · subst h; exact hmin w (List.mem_cons_self _ _)
        · rcases List.mem_cons.mp h with h2 | h2
          · subst h2; exact le_trans (hmin v0 (List.mem_cons_self _ _)) hle
          · exact hmin w (List.mem_cons_of_mem _ h2)
      · cases pre with
        | nil =>
          simp only [List.nil_append] at hdec
          obtain ⟨h1, h2⟩ := List.cons.inj hdec
          refine ⟨[], v :: post, ?_, by intro w hw; cases hw⟩
          rw [List.nil_append, ← h1, ← h2]
        | cons p0 pre2 =>
          simp only [List.cons_append] at hdec
          obtain ⟨h1, h2⟩ := List.cons.inj hdec
          have hx := hpre p0 (List.mem_cons_self _ _)
          rw [← h1] at hx
          refine ⟨v0 :: v :: pre2, post, ?_, ?_⟩
          · rw [List.cons_append, List.cons_append, ← h2]
          · intro w hw
            rcases List.mem_cons.mp hw with h | h
            · subst h; exact hx
            · rcases List.mem_cons.mp h with h3 | h3
              · subst h3; exact lt_of_lt_of_le hx hle
              · exact hpre w (List.mem_cons_of_mem _ h3)

lemma foldl_isFirstMaxBy {α : Type} (f : α → Int) (v0 : α) (vs : List α) :
    isFirstMaxBy f (vs.foldl (fun acc v => if f v > f acc then v else acc) v0) (v0 :: vs) := by
  induction vs generalizing v0 with
  | nil =>
    refine ⟨List.mem_cons_self _ _, ?_, [], [], rfl, by intro w hw; cases hw⟩
    intro w hw
    rcases List.mem_cons.mp hw with h | h
    · subst h; exact le_refl _
    · cases h
  | cons v vs ih =>
    simp only [List.foldl_cons]
    by_cases hf : f v > f v0
    · rw [if_pos hf]
      obtain ⟨hmem, hmax, pre, post, hdec, hpre⟩ := ih v
      refine ⟨List.mem_cons_of_mem _ hmem, ?_, v0 :: pre, post, ?_, ?_⟩
      · intro w hw
        rcases List.mem_cons.mp hw with h | h
        · subst h; exact le_of_lt (lt_of_lt_of_le hf (hmax v (List.mem_cons_self _ _)))
        · exact hmax w h
      · rw [List.cons_append, ← hdec]
      · intro w hw
        rcases List.mem_cons.mp hw with h | h
        · subst h; exact lt_of_lt_of_le hf (hmax v (List.mem_cons_self _ _))
        · exact hpre w h
    · rw [if_neg hf]
      obtain ⟨hmem, hmax, pre, post, hdec, hpre⟩ := ih v0
      have hle : f v ≤ f v0 := le_of_not_lt hf
      refine ⟨?_, ?_, ?_⟩
      · rcases List.mem_cons.mp hmem with h | h
        · rw [h]; exact List.mem_cons_self _ _
        · exact List.mem_cons_of_mem _ (List.mem_cons_of_mem _ h)
      · intro w hw
        rcases List.mem_cons.mp hw with h | h
        · subst h; exact hmax w (List.mem_cons_self _ _)
        · rcases List.mem_cons.mp h with h2 | h2
          · subst h2; exact le_trans hle (hmax v0 (List.mem_cons_self _ _))
          · exact hmax w (List.mem_cons_of_mem _ h2)
      · cases pre with
        | nil =>
          simp only [List.nil_append] at hdec
          obtain ⟨h1, h2⟩ := List.cons.inj hdec
          refine ⟨[], v :: post, ?_, by intro w hw; cases hw⟩
          rw [List.nil_append, ← h1, ← h2]
        | cons p0 pre2 =>
          simp only [List.cons_append] at hdec
          obtain ⟨h1, h2⟩ := List.cons.inj hdec
          have hx := hpre p0 (List.mem_cons_self _ _)
          rw [← h1] at hx
          refine ⟨v0 :: v :: pre2, post, ?_, ?_⟩
          · rw [List.cons_append, List.cons_append, ← h2]
          · intro w hw
            rcases List.mem_cons.mp hw with h | h
            · subst h; exact hx
            · rcases List.mem_cons.mp h with h3 | h3
              · subst h3; exact lt_of_le_of_lt hle hx
              · exact hpre w (List.mem_cons_of_mem _ h3)

lemma foldl_self_head_hi (v0 : Variant) (vs : List Variant) :
    (v0 :: vs).foldl (fun acc v => if v.Bandwidth > acc.Bandwidth then v else acc) v0
      = vs.foldl (fun acc v => if v.Bandwidth > acc.Bandwidth then v else acc) v0 := by
  simp only [List.foldl_cons, ite_self]

lemma foldl_self_head_lo (v0 : Variant) (vs : List Variant) :
    (v0 :: vs).foldl (fun acc v => if v.Bandwidth < acc.Bandwidth then v else acc) v0
      = vs.foldl (fun acc v => if v.Bandwidth < acc.Bandwidth then v else acc) v0 := by
  simp only [List.foldl_cons, ite_self]

lemma foldl_self_head_med (avg : Int) (v0 : Variant) (vs : List Variant) :
    (v0 :: vs).foldl (fun acc v =>
        if absInt (v.Bandwidth - avg) < absInt (acc.Bandwidth - avg) then v else acc) v0
      = vs.foldl (fun acc v =>
        if absInt (v.Bandwidth - avg) < absInt (acc.Bandwidth - avg) then v else acc) v0 := by
  simp only [List.foldl_cons, ite_self]

set_option maxHeartbeats 1600000 in
/-- C4 amended: on a master playlist with at least one variant, quality high
selects the first variant of maximum bandwidth, low the first of minimum
bandwidth, and medium the first variant whose bandwidth is closest to the
floored midpoint (min+max)/2 in Go integer division (under the exact
midpoint reading of the spec the selection differs, see the counterexample);
ties are broken by first occurrence; any other quality is the unknown
quality error with no fallback. For bandwidths {100,500,900}, high selects
900, low selects 100 and medium selects 500. -/
theorem getVariantURL_selection (lines : List Str) (base : GoURL) (quality : Str)
    (v0 : Variant) (vs : List Variant)
    (hv : collectVariants base lines 0 = v0 :: vs) :
    (quality = strOf "high" → ∃ m, isFirstMaxBy Variant.Bandwidth m (v0 :: vs)
        ∧ getVariantURL lines quality base = .ok m.URL)
    ∧ (quality = strOf "low" → ∃ m, isFirstMinBy Variant.Bandwidth m (v0 :: vs)
        ∧ getVariantURL lines quality base = .ok m.URL)
    ∧ (quality = strOf "medium" → ∃ m,
        isFirstMinBy (fun v => absInt (v.Bandwidth
            - (maxBandwidthOf v0 vs + minBandwidthOf v0 vs) / 2)) m (v0 :: vs)
        ∧ getVariantURL lines quality base = .ok m.URL)
    ∧ (quality ≠ strOf "high" → quality ≠ strOf "low" → quality ≠ strOf "medium" →
        getVariantURL lines quality base = .error "unknown quality")
    ∧ getVariantURL demoMasterLines (strOf "high") demoBase
        = .ok (strOf "http://h/v900.m3u8")
    ∧ getVariantURL demoMasterLines (strOf "low") demoBase
        = .ok (strOf "http://h/v100.m3u8")
    ∧ getVariantURL demoMasterLines (strOf "medium") demoBase
        = .ok (strOf "http://h/v500.m3u8") := by
  refine ⟨?_, ?_, ?_, ?_, by decide, by decide, by decide⟩
  · intro hq
    subst hq
    refine ⟨vs.foldl (fun acc v => if v.Bandwidth > acc.Bandwidth then v else acc) v0,
      foldl_isFirstMaxBy Variant.Bandwidth v0 vs, ?_⟩
    have he : getVariantURL lines (strOf "high") base
        = .ok ((v0 :: vs).foldl
            (fun acc v => if v.Bandwidth > acc.Bandwidth then v else acc) v0).URL := by
      simp [getVariantURL, hv]
    rw [he, foldl_self_head_hi]
  · intro hq
    subst hq
    have hne : strOf "low" ≠ strOf "high" := by decide
    refine ⟨vs.foldl (fun acc v => if v.Bandwidth < acc.Bandwidth then v else acc) v0,
      foldl_isFirstMinBy Variant.Bandwidth v0 vs, ?_⟩
    have he : getVariantURL lines (strOf "low") base
        = .ok ((v0 :: vs).foldl
            (fun acc v => if v.Bandwidth < acc.Bandwidth then v else acc) v0).URL := by
      simp [getVariantURL, hv, hne]
    rw [he, foldl_self_head_lo]
  · intro hq
    subst hq
    have hne1 : strOf "medium" ≠ strOf "high" := by decide
    have hne2 : strOf "medium" ≠ strOf "low" := by decide
    have he : getVariantURL lines (strOf "medium") base
        = .ok ((v0 :: vs).foldl (fun acc v =>
            if absInt (v.Bandwidth - (maxBandwidthOf v0 vs + minBandwidthOf v0 vs) / 2)
                < absInt (acc.Bandwidth - (maxBandwidthOf v0 vs + minBandwidthOf v0 vs) / 2)
            then v else acc) v0).URL := by
      simp [getVariantURL, hv, hne1, hne2]
    revert he
    generalize (maxBandwidthOf v0 vs + minBandwidthOf v0 vs) / 2 = avg
    intro he
    exact ⟨vs.foldl (fun acc v =>
        if absInt (v.Bandwidth - avg) < absInt (acc.Bandwidth - avg) then v else acc) v0,
      foldl_isFirstMinBy (fun v => absInt (v.Bandwidth - avg)) v0 vs,
      by rw [he, foldl_self_head_med]⟩
  · intro h1 h2 h3
    simp [getVariantURL, hv, h1, h2, h3]

/-- Witness for C4: on the {100,500,900} master playlist, quality high is
answered by the first maximum-bandwidth variant and an unknown quality
string is the unknown quality error. -/
theorem getVariantURL_selection_witness :
    (∃ m, isFirstMaxBy Variant.Bandwidth m
        [⟨100, strOf "http://h/v100.m3u8"⟩, ⟨500, strOf "http://h/v500.m3u8"⟩,
         ⟨900, strOf "http://h/v900.m3u8"⟩]
      ∧ getVariantURL demoMasterLines (strOf "high") demoBase = .ok m.URL)
    ∧ getVariantURL demoMasterLines (strOf "4k") demoBase
        = .error "unknown quality" := by
  have h1 := getVariantURL_selection demoMasterLines demoBase (strOf "high")
      ⟨100, strOf "http://h/v100.m3u8"⟩
      [⟨500, strOf "http://h/v500.m3u8"⟩, ⟨900, strOf "http://h/v900.m3u8"⟩]
      (by decide)
  have h2 := getVariantURL_selection demoMasterLines demoBase (strOf "4k")
      ⟨100, strOf "http://h/v100.m3u8"⟩
      [⟨500, strOf "http://h/v500.m3u8"⟩, ⟨900, strOf "http://h/v900.m3u8"⟩]
      (by decide)
  exact ⟨h1.1 rfl, h2.2.2.2.1 (by decide) (by decide) (by decide)⟩

/-- Counterexample for C4: for variant bandwidths 1, 7, 6, 12 (in that
order) the exact midpoint between min and max is 6.5; the variant
numerically closest to it, with ties broken by first occurrence, is the
bandwidth-7 one (distance one half, listed before the bandwidth-6 one), but
the code selects the bandwidth-6 variant, closest to the floored midpoint
(1+12)/2 = 6. -/
theorem getVariantURL_medium_midpoint_counterexample :
    getVariantURL cxMasterLines (strOf "medium") demoBase
        = .ok (strOf "http://h/v6.m3u8")
    ∧ (specMediumVariant (collectVariants demoBase cxMasterLines 0)).map Variant.URL
        = some (strOf "http://h/v7.m3u8")
    ∧ strOf "http://h/v6.m3u8" ≠ strOf "http://h/v7.m3u8" := by
  refine ⟨by decide, by decide, by decide⟩

/-! ### C5: reference classification in the zee5 rewriter -/

lemma startsWith_trans (s q p : Str) (h1 : startsWith s q = true)
    (h2 : startsWith q p = true) : startsWith s p = true := by
  induction p generalizing s q with
  | nil => cases s <;> rfl
  | cons c p ih =>
    cases q with
    | nil => simp [startsWith] at h2
    | cons d q' =>
      simp only [startsWith, Bool.and_eq_true, decide_eq_true_eq] at h2
      obtain ⟨hdc, h2'⟩ := h2
      cases s with
      | nil => simp [startsWith] at h1
      | cons e s' =>
        simp only [startsWith, Bool.and_eq_true, decide_eq_true_eq] at h1
        obtain ⟨hed, h1'⟩ := h1
        simp only [startsWith, Bool.and_eq_true, decide_eq_true_eq]
        exact ⟨hed.trans hdc, ih s' q' h1' h2'⟩

lemma startsWith_false_of (s p q : Str) (hqp : startsWith q p = true)
    (h : startsWith s p = false) : startsWith s q = false := by
  by_contra hq
  rw [Bool.not_eq_false] at hq
  rw [startsWith_trans s q p hq hqp] at h
  cases h

/-- Counterexample for C5: a relative segment-shaped reference inside a
master playlist does not pass through unchanged: transformURL resolves it
against the base URL, so the emitted line differs from the original. -/
theorem transformURL_master_segment_counterexample :
    transformURL (strOf "seg001.ts") demoBase true [] = strOf "http://h/live/seg001.ts"
    ∧ strOf "http://h/live/seg001.ts" ≠ strOf "seg001.ts" := by
  exact ⟨by decide, by decide⟩

/-- C5 amended: transformURL classifies each reference by its parsed path: a
.m3u8 reference is rewritten to the playlist-render endpoint carrying the
encrypted token of the resolved URL; a .ts or .mp4 reference is rewritten to
the segment-render endpoint with the matching sub-kind only when not in
master mode; a segment-shaped reference in master mode, and any other
reference, is resolved against the base URL and returned without gateway
rewriting (so it is changed whenever it was relative); in handlePlaylist,
comment lines other than EXT-X-MAP and EXT-X-MEDIA and blank-trimming lines
pass through verbatim, and non-comment lines are handed to transformURL. -/
theorem transformURL_classification (rel : Str) (base : GoURL) (isMaster : Bool) (pre : Str) :
    (containsSub (refPath rel) (strOf ".m3u8") = true →
      transformURL rel base isMaster pre
        = pre ++ strOf "/zee5/render/playlist.m3u8?auth="
            ++ EncryptURL (resolveRefStr base rel))
    ∧ (containsSub (refPath rel) (strOf ".m3u8") = false →
       (containsSub (refPath rel) (strOf ".ts")
          || containsSub (refPath rel) (strOf ".mp4")) = true →
       isMaster = false →
        transformURL rel base isMaster pre
          = pre ++ strOf "/zee5/render/segment."
              ++ (if containsSub (refPath rel) (strOf ".mp4") then strOf "mp4"
                  else strOf "ts")
              ++ strOf "?auth=" ++ EncryptURL (resolveRefStr base rel))
    ∧ (containsSub (refPath rel) (strOf ".m3u8") = false →
       (containsSub (refPath rel) (strOf ".ts")
          || containsSub (refPath rel) (strOf ".mp4")) = true →
       isMaster = true →
        transformURL rel base isMaster pre = resolveRefStr base rel)
    ∧ (containsSub (refPath rel) (strOf ".m3u8") = false →
       (containsSub (refPath rel) (strOf ".ts")
          || containsSub (refPath rel) (strOf ".mp4")) = false →
        transformURL rel base isMaster pre = resolveRefStr base rel)
    ∧ (∀ line : Str, trimSpace line ≠ [] →
        startsWith (trimSpace line) (strOf "#") = true →
        startsWith (trimSpace line) (strOf "#EXT-X-MAP") = false →
        startsWith (trimSpace line) (strOf "#EXT-X-MEDIA") = false →
        processPlaylistLine base isMaster pre line = line)
    ∧ (∀ line : Str, trimSpace line ≠ [] →
        startsWith (trimSpace line) (strOf "#") = false →
        processPlaylistLine base isMaster pre line
          = transformURL (trimSpace line) base isMaster pre) := by
  refine ⟨?_, ?_, ?_, ?_, ?_, ?_⟩
  · intro h1
    simp only [refPath] at h1
    simp [transformURL, resolveRefStr, h1]
  · intro h1 h2 h3
    subst h3
    simp only [refPath] at h1 h2 ⊢
    simp [transformURL, resolveRefStr, h1, h2]
  · intro h1 h2 h3
    subst h3
    simp only [refPath] at h1 h2
    simp [transformURL, resolveRefStr, h1, h2]
  · intro h1 h2
    simp only [refPath] at h1 h2
    simp only [Bool.or_eq_false_iff] at h2
    simp [transformURL, resolveRefStr, h1, h2.1, h2.2]
  · intro line h0 h1 h2 h3
    simp [processPlaylistLine, h0, h2, h3, h1]
  · intro line h0 h1
    have hm : startsWith (trimSpace line) (strOf "#EXT-X-MAP") = false :=
      startsWith_false_of _ (strOf "#") _ (by decide) h1
    have hmd : startsWith (trimSpace line) (strOf "#EXT-X-MEDIA") = false :=
      startsWith_false_of _ (strOf "#") _ (by decide) h1
    simp [processPlaylistLine, h0, h1, hm, hmd]

/-- Witness for C5: a relative sub-manifest reference is rewritten to the
playlist endpoint, and a relative mp4 segment reference in media mode is
rewritten to the segment endpoint with the mp4 sub-kind. -/
theorem transformURL_classification_witness :
    transformURL (strOf "sub/chunklist.m3u8") demoBase true []
      = [] ++ strOf "/zee5/render/playlist.m3u8?auth="
          ++ EncryptURL (resolveRefStr demoBase (strOf "sub/chunklist.m3u8"))
    ∧ transformURL (strOf "seg7.mp4") demoBase false []
      = [] ++ strOf "/zee5/render/segment."
          ++ (if containsSub (refPath (strOf "seg7.mp4")) (strOf ".mp4") then strOf "mp4"
              else strOf "ts")
          ++ strOf "?auth=" ++ EncryptURL (resolveRefStr demoBase (strOf "seg7.mp4")) :=
  ⟨(transformURL_classification (strOf "sub/chunklist.m3u8") demoBase true []).1
      (by decide),
   (transformURL_classification (strOf "seg7.mp4") demoBase false []).2.1
      (by decide) (by decide) rfl⟩

/-! ### C1: secure URL codec (spec-modelled) -/

lemma streamEnc_length (key : Nat) (nonce : List Nat) (p : List Nat) :
    ∀ i : Nat, (streamEnc key nonce i p).length = p.length := by
  induction p with
  | nil => intro i; rfl
  | cons a rest ih => intro i; simp [streamEnc, ih]

lemma streamEnc_lt (key : Nat) (nonce : List Nat) (p : List Nat) :
    ∀ (i x : Nat), x ∈ streamEnc key nonce i p → x < 256 := by
  induction p with
  | nil => intro i x hx; simp [streamEnc] at hx
  | cons a rest ih =>
    intro i x hx
    simp only [streamEnc] at hx
    rcases List.mem_cons.mp hx with h | h
    · subst h; exact Nat.mod_lt _ (by norm_num)
    · exact ih (i + 1) x h

lemma streamDec_streamEnc (key : Nat) (nonce : List Nat) (p : List Nat) :
    ∀ i : Nat, (∀ x ∈ p, x < 256) →
      streamDec key nonce i (streamEnc key nonce i p) = p := by
  induction p with
  | nil => intro i _; rfl
  | cons a rest ih =>
    intro i hp
    have ha : a < 256 := hp a (List.mem_cons_self _ _)
    have hrest := ih (i + 1) (fun x hx => hp x (List.mem_cons_of_mem _ hx))
    simp only [streamEnc, streamDec, hrest, List.cons.injEq, and_true]
    omega

lemma macBytes_length (key : Nat) (m : List Nat) : (macBytes key m).length = m.length := by
  simp [macBytes]

lemma byteAt_append_left (l1 l2 : List Nat) (i : Nat) (h : i < l1.length) :
    byteAt (l1 ++ l2) i = byteAt l1 i := by
  induction l1 generalizing i with
  | nil => simp at h
  | cons x rest ih =>
    cases i with
    | zero => rfl
    | succ j =>
      simp only [List.length_cons] at h
      simpa [byteAt] using ih j (by omega)

lemma byteAt_append_right (l1 l2 : List Nat) (i : Nat) (h : l1.length ≤ i) :
    byteAt (l1 ++ l2) i = byteAt l2 (i - l1.length) := by
  induction l1 generalizing i with
  | nil => simp
  | cons x rest ih =>
    cases i with
    | zero => simp at h
    | succ j =>
      simp only [List.length_cons] at h
      simpa [byteAt, Nat.succ_sub_succ] using ih j (by omega)

lemma byteAt_set_self (l : List Nat) (i b : Nat) (h : i < l.length) :
    byteAt (l.set i b) i = b := by
  induction l generalizing i with
  | nil => simp at h
  | cons x rest ih =>
    cases i with
    | zero => rfl
    | succ j =>
      simp only [List.length_cons] at h
      simpa [byteAt, List.set] using ih j (by omega)

lemma byteAt_macBytes (key : Nat) (m : List Nat) (i : Nat) (h : i < m.length) :
    byteAt (macBytes key m) i = (byteAt m i + key) % 256 := by
  induction m generalizing i with
  | nil => simp at h
  | cons x rest ih =>
    cases i with
    | zero => rfl
    | succ j =>
      simp only [List.length_cons] at h
      simpa [byteAt, macBytes] using ih j (by omega)

lemma byteAt_mem (l : List Nat) (i : Nat) (h : i < l.length) : byteAt l i ∈ l := by
  induction l generalizing i with
  | nil => simp at h
  | cons x rest ih =>
    cases i with
    | zero => exact List.mem_cons_self _ _
    | succ j =>
      simp only [List.length_cons] at h
      exact List.mem_cons_of_mem _ (ih j (by omega))

lemma decryptBytes_append_valid (key : Nat) (u t : List Nat)
    (hlen : t.length = u.length) (hu : 12 ≤ u.length) :
    decryptBytes key (u ++ t)
      = if t = macBytes key u
        then .ok (streamDec key (u.take nonceLen) 0 (u.drop nonceLen))
        else .error .invalidToken := by
  unfold decryptBytes
  have hl : (u ++ t).length = 2 * u.length := by
    simp [List.length_append, hlen]
    omega
  rw [hl]
  have hnl : nonceLen = 12 := rfl
  have hcond : 2 * u.length % 2 = 0 ∧ 2 * nonceLen ≤ 2 * u.length := by omega
  rw [if_pos hcond]
  have hhalf : 2 * u.length / 2 = u.length := by omega
  rw [hhalf]
  simp only [List.take_left, List.drop_left]

lemma decryptBytes_encryptBytes (key : Nat) (nonce p : List Nat)
    (hn : nonce.length = nonceLen) (hp : ∀ x ∈ p, x < 256) :
    decryptBytes key (encryptBytes key nonce p) = .ok p := by
  have he : encryptBytes key nonce p
      = (nonce ++ streamEnc key nonce 0 p)
          ++ macBytes key (nonce ++ streamEnc key nonce 0 p) := rfl
  have h12 : 12 ≤ (nonce ++ streamEnc key nonce 0 p).length := by
    have h1 : nonceLen = 12 := rfl
    simp [List.length_append, streamEnc_length, hn, h1]
  rw [he, decryptBytes_append_valid key _ _ (macBytes_length _ _) h12, if_pos rfl,
    List.take_left' hn, List.drop_left' hn, streamDec_streamEnc key nonce p 0 hp]

/-- C1 (spec-modelled codec): for every valid serialized reference, a byte
string with bytes below 256, encrypting under a key and a fresh nonce and
decrypting returns exactly the reference; and decrypting a token in which
any single byte position was replaced by a different byte value fails
deterministically with InvalidToken, never returning corrupted content. -/
theorem secureurl_roundtrip_and_tamper (key : Nat) (nonce p : List Nat)
    (hn : nonce.length = nonceLen) (hnb : ∀ x ∈ nonce, x < 256)
    (hp : ∀ x ∈ p, x < 256) (i b : Nat)
    (hi : i < (encryptBytes key nonce p).length) (hb : b < 256)
    (hne : b ≠ byteAt (encryptBytes key nonce p) i) :
    decryptBytes key (encryptBytes key nonce p) = .ok p
    ∧ decryptBytes key ((encryptBytes key nonce p).set i b) = .error .invalidToken := by
  refine ⟨decryptBytes_encryptBytes key nonce p hn hp, ?_⟩
  have he : encryptBytes key nonce p
      = (nonce ++ streamEnc key nonce 0 p)
          ++ macBytes key (nonce ++ streamEnc key nonce 0 p) := rfl
  rw [he] at hi hne ⊢
  have hub : ∀ x ∈ nonce ++ streamEnc key nonce 0 p, x < 256 := by
    intro x hx
    rcases List.mem_append.mp hx with h | h
    · exact hnb x h
    · exact streamEnc_lt key nonce p 0 x h
  have hu12 : 12 ≤ (nonce ++ streamEnc key nonce 0 p).length := by
    have h1 : nonceLen = 12 := rfl
    simp [List.length_append, streamEnc_length, hn, h1]
  revert hi hne
  generalize nonce ++ streamEnc key nonce 0 p = u at hub hu12
  intro hi hne
  have hilen : i < u.length + u.length := by
    simpa [List.length_append, macBytes_length] using hi
  by_cases hcase : i < u.length
  · rw [List.set_append_left i b hcase,
      decryptBytes_append_valid key (u.set i b) (macBytes key u)
        (by simp [macBytes_length]) (by simpa using hu12)]
    rw [byteAt_append_left _ _ _ hcase] at hne
    rw [if_neg ?_]
    intro heq
    have hpt := congrArg (fun l => byteAt l i) heq
    simp only at hpt
    rw [byteAt_macBytes key u i hcase,
      byteAt_macBytes key (u.set i b) i (by simpa using hcase),
      byteAt_set_self u i b hcase] at hpt
    have hux : byteAt u i < 256 := hub _ (byteAt_mem u i hcase)
    have : byteAt u i = b := by omega
    exact hne (by rw [this])
  · have hge : u.length ≤ i := le_of_not_lt hcase
    have hj : i - u.length < u.length := by omega
    rw [List.set_append_right i b hge,
      decryptBytes_append_valid key u ((macBytes key u).set (i - u.length) b)
        (by simp [macBytes_length]) hu12]
    rw [byteAt_append_right _ _ _ hge] at hne
    rw [if_neg ?_]
    intro heq
    have hpt := congrArg (fun l => byteAt l (i - u.length)) heq
    simp only at hpt
    rw [byteAt_set_self (macBytes key u) (i - u.length) b
        (by simpa [macBytes_length] using hj)] at hpt
    exact hne hpt

/-- Witness for C1: a concrete 2-byte reference round-trips through the
codec and a mutation of token byte 0 is rejected with InvalidToken. -/
theorem secureurl_roundtrip_and_tamper_witness :
    decryptBytes 7 (encryptBytes 7 (List.replicate 12 5) [104, 105]) = .ok [104, 105]
    ∧ decryptBytes 7 ((encryptBytes 7 (List.replicate 12 5) [104, 105]).set 0 6)
        = .error .invalidToken :=
  secureurl_roundtrip_and_tamper 7 (List.replicate 12 5) [104, 105] (by decide)
    (by decide) (by decide) 0 6 (by decide) (by decide) (by decide)

end JioTV
